import Mathlib

/-!
# Verification of the playlist recommendation service

A shallow embedding of the Flask recommendation service (`src/api/app.py`,
model file produced by `src/ml/model_generator.py`) together with proofs of
the specified properties of its recommendation engine (`get_recommendations`),
its model loader (`load_model`), the hot-reload poller
(`check_and_reload_model`) and the `/api/recommend` request handler
(`recommend`).

Conventions of the embedding:
* Python floats (rule confidences, file mtimes) are modelled as `ℚ`;
  all comparisons performed by the code are order comparisons, which agree.
* Python dicts used as `song -> confidence` maps are modelled as association
  lists in key-insertion order: assignment to an existing key keeps its
  position, assignment to a new key appends it — exactly the iteration-order
  guarantee of Python dicts that the code's stable sort relies on.
* `sorted(..., key=lambda x: x[1], reverse=True)` is Python's stable sort
  under the total preorder "confidence descending"; a stable sort for a total
  preorder is unique, so it is embedded as `List.insertionSort` under that
  relation.
* Python sets appearing in rule antecedents/consequents are modelled as the
  list of their elements in iteration order (only membership and iteration
  are used by the code).
-/

/-- Song names. -/
abbrev Item := String

/-- In the pickled model a rule is a 3-tuple `(antecedent, consequent,
confidence)`; the first two components are each either a single item or a set
of items (`app.py` lines 91-99 normalises both shapes). A Python set is
recorded as the list of its elements in iteration order. -/
inductive ItemOrSet where
  | single (item : Item)
  | set (items : List Item)
deriving DecidableEq, Repr

/-- Lines 96-99 of `app.py`: `if not isinstance(x, set): x = {x}`. -/
def ItemOrSet.toSet : ItemOrSet → List Item
  | .single s => [s]
  | .set l => l

/-- One association rule `(antecedent, consequent, confidence)` as stored in
the model's `rules` list. -/
structure Rule where
  antecedent : ItemOrSet
  consequent : ItemOrSet
  confidence : ℚ
deriving DecidableEq, Repr

/-- The subset check `antecedent.issubset(input_set)` (line 102 of `app.py`). -/
def issubset (ant : List Item) (input : List Item) : Bool :=
  ant.all (fun s => decide (s ∈ input))

/-- Python dict lookup `recs[song]` / membership test `song in recs` on the
`recommendations` dict, modelled as an association list. -/
def dictGet? (recs : List (Item × ℚ)) (song : Item) : Option ℚ :=
  match recs with
  | [] => none
  | (s, c) :: rest => if s = song then some c else dictGet? rest song

/-- Python dict assignment `recs[song] = conf`: an existing key keeps its
position in iteration order, a new key is appended at the end. -/
def dictSet (recs : List (Item × ℚ)) (song : Item) (conf : ℚ) : List (Item × ℚ) :=
  match recs with
  | [] => [(song, conf)]
  | (s, c) :: rest =>
      if s = song then (s, conf) :: rest else (s, c) :: dictSet rest song conf

/-- Lines 104-108 of `app.py`, the body of `for song in consequent`:
`if song not in input_set: if song not in recommendations or confidence >
recommendations[song]: recommendations[song] = confidence`. -/
def processSong (input : List Item) (conf : ℚ) (recs : List (Item × ℚ))
    (song : Item) : List (Item × ℚ) :=
  if song ∈ input then recs
  else
    match dictGet? recs song with
    | none => dictSet recs song conf
    | some c => if c < conf then dictSet recs song conf else recs

/-- Lines 90-108 of `app.py`, the body of `for rule in rules`: normalise the
antecedent/consequent, and when the antecedent is a subset of the input set,
fold `processSong` over the consequent. -/
def processRule (input : List Item) (recs : List (Item × ℚ)) (rule : Rule) :
    List (Item × ℚ) :=
  if issubset rule.antecedent.toSet input then
    rule.consequent.toSet.foldl (processSong input rule.confidence) recs
  else recs

/-- The `recommendations` dict after the rule loop of `get_recommendations`
(lines 87-108 of `app.py`). -/
def recommendationsMap (input : List Item) (rules : List Rule) :
    List (Item × ℚ) :=
  rules.foldl (processRule input) []

/-- The sort relation of line 111-114: `key=lambda x: x[1], reverse=True`,
i.e. confidence descending. -/
def confDesc (a b : Item × ℚ) : Prop := b.2 ≤ a.2

instance : DecidableRel confDesc :=
  fun a b => inferInstanceAs (Decidable (b.2 ≤ a.2))

instance : IsTotal (Item × ℚ) confDesc :=
  ⟨fun a b => le_total b.2 a.2⟩

instance : IsTrans (Item × ℚ) confDesc :=
  ⟨fun _ _ _ hab hbc => le_trans hbc hab⟩

/-- The sort `sorted(recommendations.items(), key=lambda x: x[1],
reverse=True)` (lines 111-115): Python's stable sort by confidence
descending. -/
def sortedRecommendations (input : List Item) (rules : List Rule) :
    List (Item × ℚ) :=
  List.insertionSort confDesc (recommendationsMap input rules)

/-- The engine `get_recommendations(input_songs, rules, max_recommendations)` of
`app.py` lines 70-117: returns the first `max_recommendations` song names in
confidence-descending order (the route handler calls it with the default
limit 10). -/
def get_recommendations (input_songs : List Item) (rules : List Rule)
    (max_recommendations : Nat) : List Item :=
  if rules.isEmpty then []
  else
    ((sortedRecommendations input_songs rules).take max_recommendations).map
      Prod.fst

/-- A rule qualifies when its (normalised) antecedent is a subset of the
user's input set (line 102). -/
def qualifies (input : List Item) (r : Rule) : Bool :=
  issubset r.antecedent.toSet input

/-- Predicate: `r` is a rule that produces candidate `song` for the input: it
qualifies, its consequent contains `song`, and `song` is not an input song. -/
def producesFor (input : List Item) (song : Item) (r : Rule) : Bool :=
  qualifies input r && decide (song ∈ r.consequent.toSet)
    && !(decide (song ∈ input))

/-- The confidences of all rules that produce candidate `song`. -/
def qualifyingConfs (input : List Item) (rules : List Rule) (song : Item) :
    List ℚ :=
  (rules.filter (producesFor input song)).map Rule.confidence

/-- The `metadata` dict of the model file, as far as the service reads it:
`model_date` and `version` values when the keys are present
(`model_generator.py` lines 114-127 always writes both). -/
structure Metadata where
  model_date : Option String
  version : Option String
deriving DecidableEq, Repr

/-- A model dict of the shape produced by `model_generator.py` lines 114-127:
a `rules` list and a `metadata` dict. -/
structure ModelData where
  rules : List Rule
  metadata : Metadata
deriving DecidableEq, Repr

/-- A Python value successfully produced by `pickle.load`: either a dict of
the expected model shape, or some other unpicklable value — here represented
by `emptyDict` (`{}`), which unpickles fine but has neither a `rules` nor a
`metadata` key. -/
inductive PickleValue where
  | model (m : ModelData)
  | emptyDict
deriving DecidableEq, Repr

/-- Python truthiness of the unpickled value, as tested by `if new_model:`
at line 58 of `app.py`: a dict is truthy iff non-empty. -/
def PickleValue.truthy : PickleValue → Bool
  | .model _ => true
  | .emptyDict => false

/-- The state of the model file as seen by one `load_model` call. -/
inductive FileState where
  | missing
  | unloadable
  | loads (v : PickleValue)
deriving DecidableEq, Repr

/-- The loader `load_model()` of `app.py` lines 26-41: returns `None` when the file is
missing (lines 30-32), returns `None` when opening/unpickling raises (lines
39-41), and otherwise returns whatever value was unpickled (lines 34-38),
with no structural validation. -/
def load_model : FileState → Option PickleValue
  | .missing => none
  | .unloadable => none
  | .loads v => some v

/-- The shared mutable state guarded by `app.model_lock`:
`(app.model_data, app.model_last_modified)` (lines 22-23 of `app.py`). -/
structure StoreState where
  model_data : Option PickleValue
  model_last_modified : Option ℚ
deriving DecidableEq, Repr

/-- Line 55 of `app.py`: `app.model_last_modified is None or current_mtime >
app.model_last_modified`. -/
def needsReload (last : Option ℚ) (mtime : ℚ) : Bool :=
  match last with
  | none => true
  | some t => decide (t < mtime)

/-- One iteration of the `check_and_reload_model` polling loop (`app.py`
lines 48-68). `fs = none` models `os.path.exists(MODEL_PATH)` being false
(the tick does nothing); otherwise `fs = some (mtime, st)` carries the file's
modification time and the outcome a `load_model` call would have. -/
def check_and_reload_step (fs : Option (ℚ × FileState)) (s : StoreState) :
    StoreState :=
  match fs with
  | none => s
  | some (mtime, st) =>
      if needsReload s.model_last_modified mtime then
        match load_model st with
        | some m => if m.truthy then ⟨some m, some mtime⟩ else s
        | none => s
      else s

/-- A sequence of poll ticks applied in order. -/
def run_ticks (s : StoreState) (l : List (Option (ℚ × FileState))) :
    StoreState :=
  l.foldl (fun st fs => check_and_reload_step fs st) s

/-- A poll tick on which no new model is obtained: the file is absent, or the
`load_model` attempt would return `None` (missing at open time, or raising),
or the unpickled value is falsy and rejected by `if new_model:`. -/
def loadFails : Option (ℚ × FileState) → Bool
  | none => true
  | some (_, st) =>
      match load_model st with
      | none => true
      | some m => !m.truthy

/-- The configured version label `SERVER_VERSION =
os.environ.get('SERVER_VERSION', '1.0')` (line 17 of `app.py`). -/
def SERVER_VERSION (env : Option String) : String := env.getD "1.0"

/-- The shape of the body of a `/api/recommend` request, as discriminated by
the handler (lines 144-164 of `app.py`): `request.get_json` raises; or the
parsed value is falsy (`not data`); or it is a dict without a `songs` key; or
`songs` is present but not a list; or `songs` is a list of song names. -/
inductive RequestBody where
  | invalidJson
  | nullBody
  | missingSongs
  | songsNotList
  | songs (l : List Item)
deriving DecidableEq, Repr

/-- The successful response body built at lines 172-178 of `app.py`. -/
structure RecResponse where
  songs : List Item
  version : String
  model_date : String
  input_songs : List Item
  num_recommendations : Nat
deriving DecidableEq, Repr

/-- The outcome of one `/api/recommend` request: the distinct error responses
of the handler (503 at lines 139-142, the three 400s at lines 148-164, the
500 at lines 183-186) or a 200 with a response body. -/
inductive RecResult where
  | modelUnavailable
  | invalidJson
  | missingField
  | invalidInput
  | recommendationFailed
  | ok (r : RecResponse)
deriving DecidableEq, Repr

/-- The `/api/recommend` handler `recommend()` of `app.py` lines 119-186.
The whole body runs holding `app.model_lock`; the model-availability check
(line 138) comes first, then request parsing/validation (lines 144-164), then
`rules = model_data.get('rules', [])`, `get_recommendations`, and the
response build which reads `model_data['metadata']` — the latter raises
`KeyError` into the `except` of line 182 when the loaded value has no
`metadata` key, producing the 500 response. -/
def recommend (server_version : String) (s : StoreState)
    (req : RequestBody) : RecResult :=
  match s.model_data with
  | none => .modelUnavailable
  | some md =>
      match req with
      | .invalidJson => .invalidJson
      | .nullBody => .missingField
      | .missingSongs => .missingField
      | .songsNotList => .invalidInput
      | .songs input =>
          match md with
          | .model m =>
              let recs := get_recommendations input m.rules 10
              .ok ⟨recs, server_version, m.metadata.model_date.getD "unknown",
                input, recs.length⟩
          | .emptyDict => .recommendationFailed

/-- Events of the two task kinds of the service, used to record which steps
of `app.py` execute while `app.model_lock` is held. -/
inductive Evt where
  | statFile
  | acquireModelLock
  | ioLoadModel
  | publish
  | releaseModelLock
  | sleepInterval
  | checkModelLoaded
  | validateRequest
  | computeRecommendations
  | buildResponse
deriving DecidableEq, Repr

/-- The event sequence of one iteration of `check_and_reload_model` in which
the file exists and is newer (lines 50-68 of `app.py`): `os.path.exists` and
`os.path.getmtime` run first, then `with app.model_lock:` is entered, and
`load_model()` — the disk open, read and `pickle.load` — together with the
publish of `app.model_data`/`app.model_last_modified` run inside that block,
followed by `time.sleep`. -/
def pollerTickTrace : List Evt :=
  [.statFile, .acquireModelLock, .ioLoadModel, .publish, .releaseModelLock,
    .sleepInterval]

/-- The event sequence of one successful `/api/recommend` request (lines
137-180 of `app.py`): the entire handler body, from the availability check
through validation, recommendation computation and response build, runs
inside `with app.model_lock:`. -/
def recommendTrace : List Evt :=
  [.acquireModelLock, .checkModelLoaded, .validateRequest,
    .computeRecommendations, .buildResponse, .releaseModelLock]

/-- The sub-trace of a trace executed while `app.model_lock` is held: the
events strictly between the acquire and the release. -/
def criticalSection (tr : List Evt) : List Evt :=
  ((tr.dropWhile (fun e => !decide (e = Evt.acquireModelLock))).drop 1).takeWhile
    (fun e => !decide (e = Evt.releaseModelLock))

example : criticalSection pollerTickTrace = [.ioLoadModel, .publish] := by decide

example : get_recommendations ["X"]
    [⟨.single "X", .single "Y", 3⟩, ⟨.single "X", .single "Z", 3⟩,
     ⟨.single "Y", .single "W", 1⟩] 10 = ["Y", "Z"] := by decide

/-! ## Association-list (Python dict) lemmas -/

theorem dictGet?_dictSet_self (recs : List (Item × ℚ)) (s : Item) (v : ℚ) :
    dictGet? (dictSet recs s v) s = some v := by
  induction recs with
  | nil => simp [dictGet?, dictSet]
  | cons a rest ih =>
      obtain ⟨a1, a2⟩ := a
      by_cases h : a1 = s
      · simp [dictSet, dictGet?, h]
      · simp [dictSet, dictGet?, h, ih]

theorem dictGet?_dictSet_ne (recs : List (Item × ℚ)) (s t : Item) (v : ℚ)
    (h : t ≠ s) : dictGet? (dictSet recs s v) t = dictGet? recs t := by
  have h' : ¬ s = t := fun he => h he.symm
  induction recs with
  | nil => simp [dictGet?, dictSet, h']
  | cons a rest ih =>
      obtain ⟨a1, a2⟩ := a
      by_cases hs : a1 = s
      · subst hs
        simp [dictSet, dictGet?, h']
      · simp [dictSet, dictGet?, hs, ih]

theorem dictGet?_eq_none_iff (recs : List (Item × ℚ)) (s : Item) :
    dictGet? recs s = none ↔ s ∉ recs.map Prod.fst := by
  induction recs with
  | nil => simp [dictGet?]
  | cons a rest ih =>
      obtain ⟨a1, a2⟩ := a
      by_cases h : a1 = s
      · subst h
        simp [dictGet?]
      · have h' : ¬ s = a1 := fun he => h he.symm
        simp [dictGet?, h, h', ih]

theorem mem_keys_of_dictGet?_some {recs : List (Item × ℚ)} {s : Item} {c : ℚ}
    (h : dictGet? recs s = some c) : s ∈ recs.map Prod.fst := by
  by_contra hmem
  rw [(dictGet?_eq_none_iff recs s).mpr hmem] at h
  cases h

theorem dictSet_map_fst_of_mem (recs : List (Item × ℚ)) (s : Item) (v : ℚ)
    (h : s ∈ recs.map Prod.fst) :
    (dictSet recs s v).map Prod.fst = recs.map Prod.fst := by
  induction recs with
  | nil => simp at h
  | cons a rest ih =>
      obtain ⟨a1, a2⟩ := a
      simp only [List.map_cons] at h
      by_cases hs : a1 = s
      · simp [dictSet, hs]
      · rcases List.mem_cons.mp h with h | h
        · exact absurd h.symm hs
        · simp [dictSet, hs, ih h]

theorem dictSet_map_fst_of_not_mem (recs : List (Item × ℚ)) (s : Item) (v : ℚ)
    (h : s ∉ recs.map Prod.fst) :
    (dictSet recs s v).map Prod.fst = recs.map Prod.fst ++ [s] := by
  induction recs with
  | nil => simp [dictSet]
  | cons a rest ih =>
      obtain ⟨a1, a2⟩ := a
      simp only [List.map_cons, List.mem_cons] at h
      push_neg at h
      have h1 : ¬ a1 = s := fun he => h.1 he.symm
      simp [dictSet, h1, ih h.2]

/-! ## Branch equations for `processSong` (lines 104-108) -/

theorem processSong_of_mem_input {input : List Item} (conf : ℚ)
    (recs : List (Item × ℚ)) {s' : Item} (hin : s' ∈ input) :
    processSong input conf recs s' = recs := by
  simp [processSong, hin]

theorem processSong_of_none {input : List Item} (conf : ℚ)
    {recs : List (Item × ℚ)} {s' : Item} (hin : s' ∉ input)
    (hd : dictGet? recs s' = none) :
    processSong input conf recs s' = dictSet recs s' conf := by
  simp [processSong, hin, hd]

theorem processSong_of_some_lt {input : List Item} {conf : ℚ}
    {recs : List (Item × ℚ)} {s' : Item} {c : ℚ} (hin : s' ∉ input)
    (hd : dictGet? recs s' = some c) (hlt : c < conf) :
    processSong input conf recs s' = dictSet recs s' conf := by
  simp [processSong, hin, hd, hlt]

theorem processSong_of_some_ge {input : List Item} {conf : ℚ}
    {recs : List (Item × ℚ)} {s' : Item} {c : ℚ} (hin : s' ∉ input)
    (hd : dictGet? recs s' = some c) (hlt : ¬ c < conf) :
    processSong input conf recs s' = recs := by
  simp [processSong, hin, hd, hlt]

/-! ## `processSong` invariants -/

theorem prov_processSong {input : List Item} {conf : ℚ}
    {recs : List (Item × ℚ)} {s' t : Item} {c' : ℚ}
    (h : dictGet? (processSong input conf recs s') t = some c') :
    dictGet? recs t = some c' ∨ (c' = conf ∧ t = s' ∧ t ∉ input) := by
  by_cases hin : s' ∈ input
  · rw [processSong_of_mem_input conf recs hin] at h
    exact Or.inl h
  · cases hd : dictGet? recs s' with
    | none =>
        rw [processSong_of_none conf hin hd] at h
        by_cases hts : t = s'
        · subst hts
          rw [dictGet?_dictSet_self] at h
          exact Or.inr ⟨(Option.some.inj h).symm, rfl, hin⟩
        · rw [dictGet?_dictSet_ne _ _ _ _ hts] at h
          exact Or.inl h
    | some c =>
        by_cases hlt : c < conf
        · rw [processSong_of_some_lt hin hd hlt] at h
          by_cases hts : t = s'
          · subst hts
            rw [dictGet?_dictSet_self] at h
            exact Or.inr ⟨(Option.some.inj h).symm, rfl, hin⟩
          · rw [dictGet?_dictSet_ne _ _ _ _ hts] at h
            exact Or.inl h
        · rw [processSong_of_some_ge hin hd hlt] at h
          exact Or.inl h

theorem mono_processSong (input : List Item) (conf : ℚ) (s' : Item)
    {recs : List (Item × ℚ)} {t : Item} {c : ℚ}
    (h : dictGet? recs t = some c) :
    ∃ c', dictGet? (processSong input conf recs s') t = some c' ∧ c ≤ c' := by
  by_cases hin : s' ∈ input
  · rw [processSong_of_mem_input conf recs hin]
    exact ⟨c, h, le_refl c⟩
  · cases hd : dictGet? recs s' with
    | none =>
        have hts : t ≠ s' := by
          intro he; subst he; rw [h] at hd; cases hd
        rw [processSong_of_none conf hin hd, dictGet?_dictSet_ne _ _ _ _ hts]
        exact ⟨c, h, le_refl c⟩
    | some cc =>
        by_cases hlt : cc < conf
        · rw [processSong_of_some_lt hin hd hlt]
          by_cases hts : t = s'
          · subst hts
            rw [h] at hd
            rw [dictGet?_dictSet_self]
            exact ⟨conf, rfl, le_of_lt ((Option.some.inj hd) ▸ hlt)⟩
          · rw [dictGet?_dictSet_ne _ _ _ _ hts]
            exact ⟨c, h, le_refl c⟩
        · rw [processSong_of_some_ge hin hd hlt]
          exact ⟨c, h, le_refl c⟩

theorem establish_processSong (input : List Item) (conf : ℚ)
    (recs : List (Item × ℚ)) {t : Item} (hin : t ∉ input) :
    ∃ c', dictGet? (processSong input conf recs t) t = some c' ∧ conf ≤ c' := by
  cases hd : dictGet? recs t with
  | none =>
      rw [processSong_of_none conf hin hd]
      exact ⟨conf, dictGet?_dictSet_self _ _ _, le_refl _⟩
  | some c =>
      by_cases hlt : c < conf
      · rw [processSong_of_some_lt hin hd hlt]
        exact ⟨conf, dictGet?_dictSet_self _ _ _, le_refl _⟩
      · rw [processSong_of_some_ge hin hd hlt]
        exact ⟨c, hd, le_of_not_lt hlt⟩

theorem mem_keys_processSong (input : List Item) (conf : ℚ) (s' : Item)
    {recs : List (Item × ℚ)} {t : Item} (h : t ∈ recs.map Prod.fst) :
    t ∈ (processSong input conf recs s').map Prod.fst := by
  by_cases hin : s' ∈ input
  · rw [processSong_of_mem_input conf recs hin]; exact h
  · cases hd : dictGet? recs s' with
    | none =>
        rw [processSong_of_none conf hin hd,
          dictSet_map_fst_of_not_mem _ _ _ ((dictGet?_eq_none_iff _ _).mp hd)]
        exact List.mem_append_left _ h
    | some c =>
        by_cases hlt : c < conf
        · rw [processSong_of_some_lt hin hd hlt,
            dictSet_map_fst_of_mem _ _ _ (mem_keys_of_dictGet?_some hd)]
          exact h
        · rw [processSong_of_some_ge hin hd hlt]; exact h

theorem keys_sub_processSong {input : List Item} {conf : ℚ}
    {recs : List (Item × ℚ)} {s' t : Item}
    (h : t ∈ (processSong input conf recs s').map Prod.fst) :
    t ∈ recs.map Prod.fst ∨ (t = s' ∧ t ∉ input) := by
  by_cases hin : s' ∈ input
  · rw [processSong_of_mem_input conf recs hin] at h; exact Or.inl h
  · cases hd : dictGet? recs s' with
    | none =>
        rw [processSong_of_none conf hin hd,
          dictSet_map_fst_of_not_mem _ _ _
            ((dictGet?_eq_none_iff _ _).mp hd)] at h
        rcases List.mem_append.mp h with h | h
        · exact Or.inl h
        · rw [List.mem_singleton] at h
          exact Or.inr ⟨h, h ▸ hin⟩
    | some c =>
        by_cases hlt : c < conf
        · rw [processSong_of_some_lt hin hd hlt,
            dictSet_map_fst_of_mem _ _ _ (mem_keys_of_dictGet?_some hd)] at h
          exact Or.inl h
        · rw [processSong_of_some_ge hin hd hlt] at h
          exact Or.inl h

theorem nodup_keys_processSong (input : List Item) (conf : ℚ) (s' : Item)
    {recs : List (Item × ℚ)} (h : (recs.map Prod.fst).Nodup) :
    ((processSong input conf recs s').map Prod.fst).Nodup := by
  by_cases hin : s' ∈ input
  · rw [processSong_of_mem_input conf recs hin]; exact h
  · cases hd : dictGet? recs s' with
    | none =>
        have hmem := (dictGet?_eq_none_iff _ _).mp hd
        rw [processSong_of_none conf hin hd,
          dictSet_map_fst_of_not_mem _ _ _ hmem]
        refine List.nodup_append.mpr ⟨h, List.nodup_singleton s', ?_⟩
        intro a ha hb
        rw [List.mem_singleton] at hb
        exact hmem (hb ▸ ha)
    | some c =>
        by_cases hlt : c < conf
        · rw [processSong_of_some_lt hin hd hlt,
            dictSet_map_fst_of_mem _ _ _ (mem_keys_of_dictGet?_some hd)]
          exact h
        · rw [processSong_of_some_ge hin hd hlt]; exact h

/-! ## Folding `processSong` over a consequent -/

theorem mono_foldl_processSong (input : List Item) (conf : ℚ)
    (l : List Item) {recs : List (Item × ℚ)} {t : Item} {c : ℚ}
    (h : dictGet? recs t = some c) :
    ∃ c', dictGet? (l.foldl (processSong input conf) recs) t = some c'
      ∧ c ≤ c' := by
  induction l generalizing recs c with
  | nil => exact ⟨c, h, le_refl c⟩
  | cons x xs ih =>
      obtain ⟨c₁, h₁, hc₁⟩ := mono_processSong input conf x h
      obtain ⟨c₂, h₂, hc₂⟩ := ih h₁
      exact ⟨c₂, h₂, le_trans hc₁ hc₂⟩

theorem prov_foldl_processSong {input : List Item} {conf : ℚ}
    {l : List Item} {recs : List (Item × ℚ)} {t : Item} {c' : ℚ}
    (h : dictGet? (l.foldl (processSong input conf) recs) t = some c') :
    dictGet? recs t = some c' ∨ (c' = conf ∧ t ∈ l ∧ t ∉ input) := by
  induction l generalizing recs with
  | nil => exact Or.inl h
  | cons x xs ih =>
      rcases ih h with h' | h'
      · rcases prov_processSong h' with h'' | h''
        · exact Or.inl h''
        · exact Or.inr ⟨h''.1, h''.2.1 ▸ List.mem_cons_self x xs, h''.2.2⟩
      · exact Or.inr ⟨h'.1, List.mem_cons_of_mem x h'.2.1, h'.2.2⟩

theorem establish_foldl_processSong (input : List Item) (conf : ℚ)
    {l : List Item} {t : Item} (recs : List (Item × ℚ))
    (hmem : t ∈ l) (hin : t ∉ input) :
    ∃ c', dictGet? (l.foldl (processSong input conf) recs) t = some c'
      ∧ conf ≤ c' := by
  induction l generalizing recs with
  | nil => cases hmem
  | cons x xs ih =>
      by_cases hx : t = x
      · subst hx
        obtain ⟨c₁, h₁, hc₁⟩ := establish_processSong input conf recs hin
        obtain ⟨c₂, h₂, hc₂⟩ := mono_foldl_processSong input conf xs h₁
        exact ⟨c₂, h₂, le_trans hc₁ hc₂⟩
      · have : t ∈ xs := by
          rcases List.mem_cons.mp hmem with h | h
          · exact absurd h hx
          · exact h
        exact ih _ this

theorem mem_keys_foldl_processSong (input : List Item) (conf : ℚ)
    (l : List Item) {recs : List (Item × ℚ)} {t : Item}
    (h : t ∈ recs.map Prod.fst) :
    t ∈ (l.foldl (processSong input conf) recs).map Prod.fst := by
  induction l generalizing recs with
  | nil => exact h
  | cons x xs ih => exact ih (mem_keys_processSong input conf x h)

theorem keys_sub_foldl_processSong {input : List Item} {conf : ℚ}
    {l : List Item} {recs : List (Item × ℚ)} {t : Item}
    (h : t ∈ (l.foldl (processSong input conf) recs).map Prod.fst) :
    t ∈ recs.map Prod.fst ∨ (t ∈ l ∧ t ∉ input) := by
  induction l generalizing recs with
  | nil => exact Or.inl h
  | cons x xs ih =>
      rcases ih h with h' | h'
      · rcases keys_sub_processSong h' with h'' | h''
        · exact Or.inl h''
        · exact Or.inr ⟨h''.1 ▸ List.mem_cons_self x xs, h''.2⟩
      · exact Or.inr ⟨List.mem_cons_of_mem x h'.1, h'.2⟩

theorem nodup_keys_foldl_processSong (input : List Item) (conf : ℚ)
    (l : List Item) {recs : List (Item × ℚ)}
    (h : (recs.map Prod.fst).Nodup) :
    ((l.foldl (processSong input conf) recs).map Prod.fst).Nodup := by
  induction l generalizing recs with
  | nil => exact h
  | cons x xs ih => exact ih (nodup_keys_processSong input conf x h)

/-! ## `processRule` invariants (outer loop, lines 90-108) -/

theorem processRule_of_not_qualifies {input : List Item}
    (recs : List (Item × ℚ)) {r : Rule} (h : ¬ qualifies input r = true) :
    processRule input recs r = recs := by
  unfold qualifies at h
  simp [processRule, h]

theorem processRule_of_qualifies {input : List Item}
    (recs : List (Item × ℚ)) {r : Rule} (h : qualifies input r = true) :
    processRule input recs r
      = r.consequent.toSet.foldl (processSong input r.confidence) recs := by
  unfold qualifies at h
  simp [processRule, h]

theorem mono_processRule (input : List Item) (r : Rule)
    {recs : List (Item × ℚ)} {t : Item} {c : ℚ}
    (h : dictGet? recs t = some c) :
    ∃ c', dictGet? (processRule input recs r) t = some c' ∧ c ≤ c' := by
  by_cases hq : qualifies input r = true
  · rw [processRule_of_qualifies recs hq]
    exact mono_foldl_processSong input r.confidence _ h
  · rw [processRule_of_not_qualifies recs hq]
    exact ⟨c, h, le_refl c⟩

theorem prov_processRule {input : List Item} {r : Rule}
    {recs : List (Item × ℚ)} {t : Item} {c' : ℚ}
    (h : dictGet? (processRule input recs r) t = some c') :
    dictGet? recs t = some c'
      ∨ (c' = r.confidence ∧ producesFor input t r = true) := by
  by_cases hq : qualifies input r = true
  · rw [processRule_of_qualifies recs hq] at h
    rcases prov_foldl_processSong h with h' | h'
    · exact Or.inl h'
    · refine Or.inr ⟨h'.1, ?_⟩
      simp only [producesFor, Bool.and_eq_true, decide_eq_true_eq,
        Bool.not_eq_true', decide_eq_false_iff_not]
      exact ⟨⟨hq, h'.2.1⟩, h'.2.2⟩
  · rw [processRule_of_not_qualifies recs hq] at h
    exact Or.inl h

theorem establish_processRule (input : List Item) {r : Rule} {t : Item}
    (recs : List (Item × ℚ)) (h : producesFor input t r = true) :
    ∃ c', dictGet? (processRule input recs r) t = some c'
      ∧ r.confidence ≤ c' := by
  simp only [producesFor, Bool.and_eq_true, decide_eq_true_eq,
    Bool.not_eq_true', decide_eq_false_iff_not] at h
  rw [processRule_of_qualifies recs h.1.1]
  exact establish_foldl_processSong input r.confidence recs h.1.2 h.2

theorem mem_keys_processRule (input : List Item) (r : Rule)
    {recs : List (Item × ℚ)} {t : Item} (h : t ∈ recs.map Prod.fst) :
    t ∈ (processRule input recs r).map Prod.fst := by
  by_cases hq : qualifies input r = true
  · rw [processRule_of_qualifies recs hq]
    exact mem_keys_foldl_processSong input r.confidence _ h
  · rw [processRule_of_not_qualifies recs hq]
    exact h

theorem keys_sub_processRule {input : List Item} {r : Rule}
    {recs : List (Item × ℚ)} {t : Item}
    (h : t ∈ (processRule input recs r).map Prod.fst) :
    t ∈ recs.map Prod.fst ∨ t ∉ input := by
  by_cases hq : qualifies input r = true
  · rw [processRule_of_qualifies recs hq] at h
    rcases keys_sub_foldl_processSong h with h' | h'
    · exact Or.inl h'
    · exact Or.inr h'.2
  · rw [processRule_of_not_qualifies recs hq] at h
    exact Or.inl h

theorem nodup_keys_processRule (input : List Item) (r : Rule)
    {recs : List (Item × ℚ)} (h : (recs.map Prod.fst).Nodup) :
    ((processRule input recs r).map Prod.fst).Nodup := by
  by_cases hq : qualifies input r = true
  · rw [processRule_of_qualifies recs hq]
    exact nodup_keys_foldl_processSong input r.confidence _ h
  · rw [processRule_of_not_qualifies recs hq]
    exact h

/-! ## Folding `processRule` over the rule list -/

theorem mono_foldl_processRule (input : List Item) (rules : List Rule)
    {recs : List (Item × ℚ)} {t : Item} {c : ℚ}
    (h : dictGet? recs t = some c) :
    ∃ c', dictGet? (rules.foldl (processRule input) recs) t = some c'
      ∧ c ≤ c' := by
  induction rules generalizing recs c with
  | nil => exact ⟨c, h, le_refl c⟩
  | cons r rest ih =>
      obtain ⟨c₁, h₁, hc₁⟩ := mono_processRule input r h
      obtain ⟨c₂, h₂, hc₂⟩ := ih h₁
      exact ⟨c₂, h₂, le_trans hc₁ hc₂⟩

theorem prov_foldl_processRule {input : List Item} {rules : List Rule}
    {recs : List (Item × ℚ)} {t : Item} {c' : ℚ}
    (h : dictGet? (rules.foldl (processRule input) recs) t = some c') :
    dictGet? recs t = some c'
      ∨ ∃ r ∈ rules, c' = r.confidence ∧ producesFor input t r = true := by
  induction rules generalizing recs with
  | nil => exact Or.inl h
  | cons r rest ih =>
      rcases ih h with h' | h'
      · rcases prov_processRule h' with h'' | h''
        · exact Or.inl h''
        · exact Or.inr ⟨r, List.mem_cons_self r rest, h''⟩
      · obtain ⟨r', hr', hc'⟩ := h'
        exact Or.inr ⟨r', List.mem_cons_of_mem r hr', hc'⟩

theorem establish_foldl_processRule (input : List Item) {rules : List Rule}
    {r : Rule} {t : Item} (recs : List (Item × ℚ)) (hr : r ∈ rules)
    (h : producesFor input t r = true) :
    ∃ c', dictGet? (rules.foldl (processRule input) recs) t = some c'
      ∧ r.confidence ≤ c' := by
  induction rules generalizing recs with
  | nil => cases hr
  | cons r₀ rest ih =>
      rcases List.mem_cons.mp hr with he | hmem
      · subst he
        obtain ⟨c₁, h₁, hc₁⟩ := establish_processRule input recs h
        obtain ⟨c₂, h₂, hc₂⟩ := mono_foldl_processRule input rest h₁
        exact ⟨c₂, h₂, le_trans hc₁ hc₂⟩
      · exact ih _ hmem

theorem keys_sub_foldl_processRule {input : List Item} {rules : List Rule}
    {recs : List (Item × ℚ)} {t : Item}
    (h : t ∈ (rules.foldl (processRule input) recs).map Prod.fst) :
    t ∈ recs.map Prod.fst ∨ t ∉ input := by
  induction rules generalizing recs with
  | nil => exact Or.inl h
  | cons r rest ih =>
      rcases ih h with h' | h'
      · exact keys_sub_processRule h'
      · exact Or.inr h'

theorem nodup_keys_foldl_processRule (input : List Item) (rules : List Rule)
    {recs : List (Item × ℚ)} (h : (recs.map Prod.fst).Nodup) :
    ((rules.foldl (processRule input) recs).map Prod.fst).Nodup := by
  induction rules generalizing recs with
  | nil => exact h
  | cons r rest ih => exact ih (nodup_keys_processRule input r h)

theorem foldl_processRule_filter_qualifies (input : List Item)
    (rules : List Rule) (recs : List (Item × ℚ)) :
    rules.foldl (processRule input) recs
      = (rules.filter (qualifies input)).foldl (processRule input) recs := by
  induction rules generalizing recs with
  | nil => rfl
  | cons r rest ih =>
      by_cases hq : qualifies input r = true
      · rw [List.filter_cons_of_pos hq]
        simp only [List.foldl_cons]
        exact ih _
      · rw [List.filter_cons_of_neg (by simpa using hq)]
        simp only [List.foldl_cons, processRule_of_not_qualifies recs hq]
        exact ih _

/-! ## Key facts about `recommendationsMap` -/

theorem nodup_keys_recommendationsMap (input : List Item)
    (rules : List Rule) :
    ((recommendationsMap input rules).map Prod.fst).Nodup :=
  nodup_keys_foldl_processRule input rules (by simp)

theorem keys_recommendationsMap_not_input {input : List Item}
    {rules : List Rule} {t : Item}
    (h : t ∈ (recommendationsMap input rules).map Prod.fst) : t ∉ input := by
  rcases keys_sub_foldl_processRule h with h' | h'
  · simp at h'
  · exact h'

theorem dictGet?_recommendationsMap_mem {input : List Item}
    {rules : List Rule} {t : Item} {c' : ℚ}
    (h : dictGet? (recommendationsMap input rules) t = some c') :
    c' ∈ qualifyingConfs input rules t := by
  rcases prov_foldl_processRule h with h' | h'
  · simp [dictGet?] at h'
  · obtain ⟨r, hr, hc, hp⟩ := h'
    exact hc ▸ List.mem_map_of_mem Rule.confidence (List.mem_filter.mpr ⟨hr, hp⟩)

theorem dictGet?_recommendationsMap_ub {input : List Item}
    {rules : List Rule} {t : Item} {c' : ℚ}
    (h : dictGet? (recommendationsMap input rules) t = some c') :
    ∀ c ∈ qualifyingConfs input rules t, c ≤ c' := by
  intro c hc
  obtain ⟨r, hr, hrc⟩ := List.mem_map.mp hc
  obtain ⟨hrm, hrp⟩ := List.mem_filter.mp hr
  obtain ⟨c'', h'', hle⟩ := establish_foldl_processRule input [] hrm hrp
  rw [show (recommendationsMap input rules) = rules.foldl (processRule input) []
    from rfl] at h
  rw [h] at h''
  exact hrc ▸ le_trans hle (le_of_eq (Option.some.inj h'').symm)

/-! ## Stability of the confidence-descending sort -/

theorem filter_conf_insertionSort (l : List (Item × ℚ)) (c : ℚ) :
    (List.insertionSort confDesc l).filter (fun p => p.2 = c)
      = l.filter (fun p => p.2 = c) := by
  have hpair : (l.filter (fun p => p.2 = c)).Pairwise confDesc := by
    apply List.pairwise_of_forall_mem_list
    intro a ha b hb
    have ha' := (List.mem_filter.mp ha).2
    have hb' := (List.mem_filter.mp hb).2
    simp only [decide_eq_true_eq] at ha' hb'
    show b.2 ≤ a.2
    rw [ha', hb']
  have hsub : List.Sublist (l.filter (fun p => p.2 = c))
      (List.insertionSort confDesc l) :=
    List.sublist_insertionSort hpair (List.filter_sublist l)
  have hidem : (l.filter (fun p => p.2 = c)).filter (fun p => p.2 = c)
      = l.filter (fun p => p.2 = c) := by
    rw [List.filter_filter]
    simp only [Bool.and_self]
  have hsub2 : List.Sublist (l.filter (fun p => p.2 = c))
      ((List.insertionSort confDesc l).filter (fun p => p.2 = c)) := by
    have h := hsub.filter (fun p => p.2 = c)
    rwa [hidem] at h
  have hlen : ((List.insertionSort confDesc l).filter
      (fun p => p.2 = c)).length = (l.filter (fun p => p.2 = c)).length :=
    ((List.perm_insertionSort confDesc l).filter _).length_eq
  exact (hsub2.eq_of_length hlen.symm).symm

/-! ## Facts about the returned recommendation list -/

theorem mem_get_recommendations {input : List Item} {rules : List Rule}
    {n : Nat} {t : Item} (h : t ∈ get_recommendations input rules n) :
    t ∈ (recommendationsMap input rules).map Prod.fst := by
  unfold get_recommendations at h
  by_cases he : rules.isEmpty
  · rw [if_pos he] at h
    cases h
  · rw [if_neg he] at h
    obtain ⟨p, hp, hpt⟩ := List.mem_map.mp h
    have hp' : p ∈ sortedRecommendations input rules :=
      (List.take_sublist n _).mem hp
    have hp'' : p ∈ recommendationsMap input rules :=
      (List.perm_insertionSort confDesc _).mem_iff.mp hp'
    exact hpt ▸ List.mem_map_of_mem Prod.fst hp''

theorem nodup_get_recommendations (input : List Item) (rules : List Rule)
    (n : Nat) : (get_recommendations input rules n).Nodup := by
  unfold get_recommendations
  by_cases he : rules.isEmpty
  · rw [if_pos he]
    exact List.nodup_nil
  · rw [if_neg he, List.map_take]
    have hperm : List.Perm ((sortedRecommendations input rules).map Prod.fst)
        ((recommendationsMap input rules).map Prod.fst) :=
      (List.perm_insertionSort confDesc _).map Prod.fst
    have hnd : ((sortedRecommendations input rules).map Prod.fst).Nodup :=
      hperm.nodup_iff.mpr (nodup_keys_recommendationsMap input rules)
    exact hnd.sublist (List.take_sublist n _)

theorem check_and_reload_step_of_loadFails {fs : Option (ℚ × FileState)}
    (s : StoreState) (h : loadFails fs = true) :
    check_and_reload_step fs s = s := by
  cases fs with
  | none => rfl
  | some p =>
      obtain ⟨mt, st⟩ := p
      simp only [loadFails] at h
      cases hl : load_model st with
      | none => simp [check_and_reload_step, hl]
      | some m =>
          rw [hl] at h
          simp only [Bool.not_eq_true'] at h
          simp [check_and_reload_step, hl, h]

/-! ## Claim theorems -/

/-- C1: For every rule model, liked-item list and limit, the list returned by
`get_recommendations` is the take of the confidence-descending sorted pair
list, that sorted list is sorted under `confDesc`, and candidates whose
confidences are exactly equal appear in the relative order in which they were
first inserted into the `recommendations` dict (the sort is stable: filtering
either list to any fixed confidence value yields the same sequence). -/
theorem get_recommendations_sorted_stable (input : List Item)
    (rules : List Rule) (n : Nat) :
    List.Sorted confDesc ((sortedRecommendations input rules).take n) ∧
    (∀ c : ℚ, (sortedRecommendations input rules).filter (fun p => p.2 = c)
        = (recommendationsMap input rules).filter (fun p => p.2 = c)) ∧
    get_recommendations input rules n
      = ((sortedRecommendations input rules).take n).map Prod.fst := by
  refine ⟨?_, fun c => filter_conf_insertionSort _ c, ?_⟩
  · exact List.Pairwise.sublist (List.take_sublist n _)
      (List.sorted_insertionSort confDesc _)
  · unfold get_recommendations
    by_cases he : rules.isEmpty
    · rw [if_pos he]
      have h0 : rules = [] := by
        cases rules with
        | nil => rfl
        | cons a l => simp [List.isEmpty] at he
      subst h0
      simp [sortedRecommendations, recommendationsMap, List.insertionSort]
    · rw [if_neg he]

/-- C2: a candidate produced by several qualifying rules appears at most once
in the output of `get_recommendations` (the output has no duplicates), and
the confidence recorded for it in the `recommendations` dict is one of the
confidences of the rules that produce it and an upper bound of all of them —
the single highest, never a sum or average. -/
theorem get_recommendations_dedup_max_confidence (input : List Item)
    (rules : List Rule) (n : Nat) (song : Item) :
    (get_recommendations input rules n).Nodup ∧
    ∀ conf, dictGet? (recommendationsMap input rules) song = some conf →
      conf ∈ qualifyingConfs input rules song ∧
      ∀ c ∈ qualifyingConfs input rules song, c ≤ conf :=
  ⟨nodup_get_recommendations input rules n,
   fun _ h => ⟨dictGet?_recommendationsMap_mem h,
     dictGet?_recommendationsMap_ub h⟩⟩

/-- C2 witness: scenario E shape — two rules both conclude `"Y"` from the
satisfied antecedent `{"X"}` with confidences 3 and 5; the dict holds `"Y"`
with confidence 5, the maximum. -/
theorem get_recommendations_dedup_max_confidence_witness :
    ((5 : ℚ) ∈ qualifyingConfs ["X"]
        [⟨.single "X", .single "Y", 3⟩, ⟨.single "X", .single "Y", 5⟩] "Y" ∧
      ∀ c ∈ qualifyingConfs ["X"]
        [⟨.single "X", .single "Y", 3⟩, ⟨.single "X", .single "Y", 5⟩] "Y",
        c ≤ 5) ∧
    get_recommendations ["X"]
      [⟨.single "X", .single "Y", 3⟩, ⟨.single "X", .single "Y", 5⟩] 10
      = ["Y"] :=
  ⟨(get_recommendations_dedup_max_confidence ["X"]
      [⟨.single "X", .single "Y", 3⟩, ⟨.single "X", .single "Y", 5⟩]
      10 "Y").2 5 (by decide),
   by decide⟩

/-- C3: the output of `get_recommendations` never contains an input song. -/
theorem get_recommendations_no_self_recommendation (input : List Item)
    (rules : List Rule) (n : Nat) (s : Item)
    (h : s ∈ get_recommendations input rules n) : s ∉ input :=
  keys_recommendationsMap_not_input (mem_get_recommendations h)

/-- C3 witness: for the rule `X → Y` and input `["X"]`, the recommended song
`"Y"` is not an input song. -/
theorem get_recommendations_no_self_recommendation_witness :
    "Y" ∈ get_recommendations ["X"] [⟨.single "X", .single "Y", 1⟩] 10 ∧
    "Y" ∉ ["X"] :=
  ⟨by decide,
   get_recommendations_no_self_recommendation ["X"]
     [⟨.single "X", .single "Y", 1⟩] 10 "Y" (by decide)⟩

/-- C4: a rule contributes candidates iff its antecedent is a subset of the
liked set: a non-qualifying rule leaves the dict exactly unchanged; a
qualifying rule puts every consequent item not already liked into the dict;
dropping all non-qualifying rules does not change the dict at all; and in
scenario B (`rules = [({X,Y},{Z},0.8)]`, `liked = ["X"]`) the result is
empty. -/
theorem rule_contributes_iff_antecedent_subset :
    (∀ (input : List Item) (recs : List (Item × ℚ)) (r : Rule),
       ¬ qualifies input r = true → processRule input recs r = recs) ∧
    (∀ (input : List Item) (recs : List (Item × ℚ)) (r : Rule),
       qualifies input r = true → ∀ s ∈ r.consequent.toSet, s ∉ input →
         s ∈ (processRule input recs r).map Prod.fst) ∧
    (∀ (input : List Item) (rules : List Rule),
       recommendationsMap input rules
         = recommendationsMap input (rules.filter (qualifies input))) ∧
    get_recommendations ["X"] [⟨.set ["X", "Y"], .set ["Z"], 0.8⟩] 10 = [] := by
  refine ⟨?_, ?_, ?_, by decide⟩
  · intro input recs r h
    exact processRule_of_not_qualifies recs h
  · intro input recs r hq s hs hin
    rw [processRule_of_qualifies recs hq]
    obtain ⟨c', h', _⟩ :=
      establish_foldl_processSong input r.confidence recs hs hin
    exact mem_keys_of_dictGet?_some h'
  · intro input rules
    exact foldl_processRule_filter_qualifies input rules []

/-- C4 witness: the partially-covered rule `{X,Y} → {Z}` with input `["X"]`
contributes nothing, while with input `["X","Y"]` it contributes `"Z"`. -/
theorem rule_contributes_iff_antecedent_subset_witness :
    processRule ["X"] [] ⟨.set ["X", "Y"], .set ["Z"], 1⟩ = [] ∧
    "Z" ∈ (processRule ["X", "Y"] [] ⟨.set ["X", "Y"], .set ["Z"], 1⟩).map
      Prod.fst :=
  ⟨rule_contributes_iff_antecedent_subset.1 ["X"] []
     ⟨.set ["X", "Y"], .set ["Z"], 1⟩ (by decide),
   rule_contributes_iff_antecedent_subset.2.1 ["X", "Y"] []
     ⟨.set ["X", "Y"], .set ["Z"], 1⟩ (by decide) "Z" (by decide) (by decide)⟩

/-- C5 counterexample: `load_model` returns the very same result (`None`) for
a missing file and for a file whose unpickling raises — there is no distinct
`SourceNotFound` versus `MalformedModel` error — and it returns a
structurally invalid unpickled value (an empty dict, with neither `rules` nor
`metadata`) as a successful load, performing no structural validation. -/
theorem load_model_no_validation_counterexample :
    load_model .missing = load_model .unloadable ∧
    load_model (.loads .emptyDict) = some .emptyDict :=
  ⟨rfl, rfl⟩

/-- C5 amended: `load_model` never raises into the caller and never produces
a partially populated model — it returns either `None` or exactly the value
that was unpickled — but it returns the single undistinguished result `None`
both when the source is missing and when loading raises, and it applies no
structural validation to a successfully unpickled value. -/
theorem load_model_amended :
    (∀ fs : FileState, load_model fs = none
        ∨ ∃ v, fs = .loads v ∧ load_model fs = some v) ∧
    load_model .missing = none ∧
    load_model .unloadable = none ∧
    (∀ v, load_model (.loads v) = some v) := by
  refine ⟨?_, rfl, rfl, fun v => rfl⟩
  intro fs
  cases fs with
  | missing => exact Or.inl rfl
  | unloadable => exact Or.inl rfl
  | loads v => exact Or.inr ⟨v, rfl, rfl⟩

/-- C6: a poll tick whose load attempt fails leaves the pair
`(app.model_data, app.model_last_modified)` exactly as it was; a tick in
which the file is absent changes nothing; a successful tick replaces both
components together as a unit; and across any sequence of ticks on which no
load succeeds — e.g. a source file that became malformed after a successful
load — the state, and hence the model returned to readers, is unchanged. -/
theorem check_and_reload_retention :
    (∀ (s : StoreState) (mt : ℚ) (st : FileState), load_model st = none →
        check_and_reload_step (some (mt, st)) s = s) ∧
    (∀ s : StoreState, check_and_reload_step none s = s) ∧
    (∀ (s : StoreState) (mt : ℚ) (st : FileState) (m : PickleValue),
        needsReload s.model_last_modified mt = true →
        load_model st = some m → m.truthy = true →
        check_and_reload_step (some (mt, st)) s = ⟨some m, some mt⟩) ∧
    (∀ (s : StoreState) (l : List (Option (ℚ × FileState))),
        (∀ x ∈ l, loadFails x = true) → run_ticks s l = s) := by
  refine ⟨?_, fun s => rfl, ?_, ?_⟩
  · intro s mt st h
    simp [check_and_reload_step, h]
  · intro s mt st m hr hl ht
    simp [check_and_reload_step, hr, hl, ht]
  · intro s l h
    induction l generalizing s with
    | nil => rfl
    | cons x xs ih =>
        have hx : loadFails x = true := h x (List.mem_cons_self x xs)
        have hxs : ∀ y ∈ xs, loadFails y = true :=
          fun y hy => h y (List.mem_cons_of_mem x hy)
        show run_ticks (check_and_reload_step x s) xs = s
        rw [check_and_reload_step_of_loadFails s hx]
        exact ih s hxs

/-- C6 witness: starting from a loaded model with mtime 5, a failing tick
(mtime 6, unpickling raises), a falsy-value tick and an absent-file tick all
leave the state exactly unchanged, while a successful tick replaces both
components as a unit. -/
theorem check_and_reload_retention_witness :
    run_ticks ⟨some (.model ⟨[], some "2024", some "1.0"⟩), some 5⟩
      [some (6, .unloadable), some (7, .loads .emptyDict), none]
      = ⟨some (.model ⟨[], some "2024", some "1.0"⟩), some 5⟩ ∧
    check_and_reload_step (some ((6 : ℚ), .unloadable))
      ⟨some (.model ⟨[], some "2024", some "1.0"⟩), some 5⟩
      = ⟨some (.model ⟨[], some "2024", some "1.0"⟩), some 5⟩ ∧
    check_and_reload_step
      (some ((8 : ℚ), .loads (.model ⟨[], some "2025", some "2.0"⟩)))
      ⟨some (.model ⟨[], some "2024", some "1.0"⟩), some 5⟩
      = ⟨some (.model ⟨[], some "2025", some "2.0"⟩), some 8⟩ :=
  ⟨check_and_reload_retention.2.2.2 _ _ (by decide),
   check_and_reload_retention.1 _ _ _ (by decide),
   check_and_reload_retention.2.2.1 _ _ _ _ (by decide) (by decide)
     (by decide)⟩

/-- C7: a recommend request arriving while the store holds no model yields
the distinct `modelUnavailable` outcome (the 503 response), for every request
body — it is never the `ok` outcome, so it is distinguishable from a request
that matched zero rules, which yields `ok` with an empty song list. -/
theorem recommend_model_unavailable (sv : String) (lm : Option ℚ)
    (req : RequestBody) :
    recommend sv ⟨none, lm⟩ req = .modelUnavailable ∧
    (∀ resp : RecResponse, RecResult.modelUnavailable ≠ .ok resp) ∧
    (∀ (meta : Metadata) (input : List Item),
       recommend sv ⟨some (.model ⟨[], meta⟩), lm⟩ (.songs input)
         = .ok ⟨[], sv, meta.model_date.getD "unknown", input, 0⟩) :=
  ⟨rfl, fun _ h => RecResult.noConfusion h, fun _ _ => rfl⟩

/-- C7 witness: concrete instance — with an empty store every request is
answered `modelUnavailable`, which differs from the `ok` answer that the
same request receives from a loaded model with zero matching rules. -/
theorem recommend_model_unavailable_witness :
    recommend "1.0" ⟨none, none⟩ (.songs ["A"]) = .modelUnavailable ∧
    RecResult.modelUnavailable
      ≠ .ok ⟨[], "1.0", "unknown", ["A"], 0⟩ ∧
    recommend "1.0" ⟨some (.model ⟨[], none, none⟩), none⟩ (.songs ["A"])
      = .ok ⟨[], "1.0", "unknown", ["A"], 0⟩ :=
  ⟨(recommend_model_unavailable "1.0" none (.songs ["A"])).1,
   (recommend_model_unavailable "1.0" none (.songs ["A"])).2.1 _,
   (recommend_model_unavailable "1.0" none (.songs ["A"])).2.2 ⟨none, none⟩
     ["A"]⟩

/-- C8 counterexample: when the Model Store is absent, a malformed request
body does not produce the invalid-request outcome — the handler checks model
availability first (line 138 of `app.py`, inside the model lock) and answers
503 `modelUnavailable`. -/
theorem recommend_invalid_request_counterexample :
    recommend "1.0" ⟨none, none⟩ .invalidJson = .modelUnavailable ∧
    recommend "1.0" ⟨none, none⟩ .invalidJson ≠ .invalidJson ∧
    recommend "1.0" ⟨none, none⟩ .missingSongs ≠ .missingField := by
  exact ⟨rfl, by decide, by decide⟩

/-- C8 amended: malformed input is answered with the corresponding distinct
invalid-request outcome only when the store holds a model; the availability
check precedes input validation (and the whole handler body, validation
included, runs holding the model lock), so with an absent store every
malformed request yields `modelUnavailable`; when a model is present the
answer to a non-`songs` request does not depend on which model is held. -/
theorem recommend_invalid_request_amended (sv : String)
    (md md' : PickleValue) (lm lm' : Option ℚ) :
    recommend sv ⟨some md, lm⟩ .invalidJson = .invalidJson ∧
    recommend sv ⟨some md, lm⟩ .nullBody = .missingField ∧
    recommend sv ⟨some md, lm⟩ .missingSongs = .missingField ∧
    recommend sv ⟨some md, lm⟩ .songsNotList = .invalidInput ∧
    recommend sv ⟨none, lm⟩ .invalidJson = .modelUnavailable ∧
    (∀ req : RequestBody,
       recommend sv ⟨some md, lm⟩ req = recommend sv ⟨some md', lm'⟩ req
         ∨ ∃ input, req = .songs input) := by
  refine ⟨rfl, rfl, rfl, rfl, rfl, ?_⟩
  intro req
  cases req with
  | invalidJson => exact Or.inl rfl
  | nullBody => exact Or.inl rfl
  | missingSongs => exact Or.inl rfl
  | songsNotList => exact Or.inl rfl
  | songs input => exact Or.inr ⟨input, rfl⟩

/-- C9 counterexample: the reload work — the disk read and unpickle performed
by `load_model` — executes inside the critical section of `app.model_lock`,
the very lock the `/api/recommend` handler acquires, so it is not performed
outside a lock shared with snapshot readers. -/
theorem poller_io_inside_lock_counterexample :
    Evt.ioLoadModel ∈ criticalSection pollerTickTrace ∧
    Evt.acquireModelLock ∈ recommendTrace := by decide

/-- C9 amended: in a reloading poll tick the critical section of
`app.model_lock` consists of the `load_model` disk read/unpickle followed by
the publish, and the request handler's entire body (availability check,
validation, recommendation computation, response build) also runs inside
that lock — so a concurrent snapshot read can block for the duration of
reload I/O, not merely for the publish step. -/
theorem poller_io_inside_lock_amended :
    criticalSection pollerTickTrace = [.ioLoadModel, .publish] ∧
    criticalSection recommendTrace
      = [.checkModelLoaded, .validateRequest, .computeRecommendations,
         .buildResponse] := by decide

/-- C10: a successful recommend response carries `SERVER_VERSION` (the
environment value, defaulting to `"1.0"`) in its `version` field and the
model metadata's `model_date` (with fallback `"unknown"`) in `model_date`;
the response is entirely independent of the `version` stored in the model's
metadata. -/
theorem response_version_from_server (env : Option String) (lm : Option ℚ)
    (rules : List Rule) (meta : Metadata) (input : List Item) :
    recommend (SERVER_VERSION env) ⟨some (.model ⟨rules, meta⟩), lm⟩
        (.songs input)
      = .ok ⟨get_recommendations input rules 10, SERVER_VERSION env,
          meta.model_date.getD "unknown", input,
          (get_recommendations input rules 10).length⟩ ∧
    SERVER_VERSION none = "1.0" ∧
    (∀ v₁ v₂ : Option String,
       recommend (SERVER_VERSION env)
           ⟨some (.model ⟨rules, meta.model_date, v₁⟩), lm⟩ (.songs input)
         = recommend (SERVER_VERSION env)
             ⟨some (.model ⟨rules, meta.model_date, v₂⟩), lm⟩ (.songs input)) :=
  ⟨rfl, rfl, fun _ _ => rfl⟩
